import Mathlib

/-!
Verification of the Chaum-Pedersen zero-knowledge-proof primitives
(`exponentiate`, `solve`, `verify`, `generate_rand_below`) of the
`zero-knowledge-proof` repository, embedded over `Nat` (the source uses
arbitrary-precision unsigned `BigUint` arithmetic).
-/

/-- Fuel-driven square-and-multiply modular exponentiation, the semantics of
`BigUint::modpow`.  With modulus `1` every result is `0` (the `1 % m` base
case), matching the library.  The fuel argument only serves structural
recursion; `e` units always suffice since the exponent at least halves. -/
def modpowF : Nat → Nat → Nat → Nat → Nat
  | 0, _, _, m => 1 % m
  | fuel + 1, n, e, m =>
    if e = 0 then 1 % m
    else if e % 2 = 1 then modpowF fuel (n * n % m) (e / 2) m * n % m
    else modpowF fuel (n * n % m) (e / 2) m

/-- `BigUint::modpow`: `n ^ e mod m`. -/
def modpow (n e m : Nat) : Nat := modpowF e n e m

/-- The structure `ZKP { p, q, alpha, beta }` from `src/lib.rs`. -/
structure ZKP where
  p : Nat
  q : Nat
  alpha : Nat
  beta : Nat

/-- `ZKP::exponentiate(n, exponent, modulus) = n.modpow(exponent, modulus)`. -/
def ZKP.exponentiate (n exponent modulus : Nat) : Nat := modpow n exponent modulus

/-- `ZKP::solve(k, c, x)`: if `k >= c*x` then `(k - c*x).modpow(1, q)`
else `q - (c*x - k).modpow(1, q)`. -/
def ZKP.solve (zkp : ZKP) (k c x : Nat) : Nat :=
  if c * x ≤ k then modpow (k - c * x) 1 zkp.q
  else zkp.q - modpow (c * x - k) 1 zkp.q

/-- `ZKP::verify(r1, r2, y1, y2, c, s)`: checks
`r1 == (alpha.modpow(s,p) * y1.modpow(c,p)).modpow(1,p)` and
`r2 == (beta.modpow(s,p) * y2.modpow(c,p)).modpow(1,p)`. -/
def ZKP.verify (zkp : ZKP) (r1 r2 y1 y2 c s : Nat) : Bool :=
  (r1 == modpow (modpow zkp.alpha s zkp.p * modpow y1 c zkp.p) 1 zkp.p) &&
  (r2 == modpow (modpow zkp.beta s zkp.p * modpow y2 c zkp.p) 1 zkp.p)

/-- `BigUint` subtraction, which panics on underflow: `none` models the panic. -/
def checkedSub (a b : Nat) : Option Nat := if b ≤ a then some (a - b) else none

/-- `BigUint::modpow`, which panics when the modulus is zero. -/
def checkedModpow (n e m : Nat) : Option Nat :=
  if m = 0 then none else some (modpow n e m)

/-- `ZKP::solve` with every partial `BigUint` operation made explicit:
`none` exactly when the Rust code would panic. -/
def ZKP.solveChecked (zkp : ZKP) (k c x : Nat) : Option Nat :=
  if c * x ≤ k then
    (checkedSub k (c * x)).bind fun d => checkedModpow d 1 zkp.q
  else
    (checkedSub (c * x) k).bind fun d =>
      (checkedModpow d 1 zkp.q).bind fun r => checkedSub zkp.q r

/-- Modelled from the spec: `ZKP::generate_rand_below` delegates to the
external `rand` crate (`thread_rng().gen_biguint_below(bound)`), whose code is
not part of this repository.  The sampler is modelled as a pure function of
the entropy drawn from the RNG, reduced modulo the bound; its possible outputs
are exactly the values in `[0, bound)` that `gen_biguint_below` can return. -/
def ZKP.generate_rand_below (entropy bound : Nat) : Nat := entropy % bound

/-- `a` has multiplicative order `q` modulo `p`: `a^q ≡ 1 (mod p)` and no
smaller positive exponent reaches `1`. -/
def hasOrder (a q p : Nat) : Prop :=
  a ^ q % p = 1 ∧ ∀ m, m < q → 0 < m → a ^ m % p ≠ 1

instance (a q p : Nat) : Decidable (hasOrder a q p) := by
  unfold hasOrder
  infer_instance

theorem modpowF_eq (fuel : Nat) : ∀ n e m : Nat, e ≤ fuel →
    modpowF fuel n e m = n ^ e % m := by
  induction fuel with
  | zero =>
    intro n e m he
    have h0 : e = 0 := Nat.le_zero.mp he
    subst h0
    simp [modpowF]
  | succ f ih =>
    intro n e m he
    by_cases h0 : e = 0
    · subst h0
      simp [modpowF]
    · have hrec : modpowF f (n * n % m) (e / 2) m = (n * n % m) ^ (e / 2) % m :=
        ih (n * n % m) (e / 2) m (by omega)
      have hbase : (n * n % m) ^ (e / 2) % m = (n * n) ^ (e / 2) % m :=
        (Nat.pow_mod (n * n) (e / 2) m).symm
      have hsq : (n * n) ^ (e / 2) = n ^ (2 * (e / 2)) := by
        rw [pow_mul, pow_two]
      by_cases h2 : e % 2 = 1
      · have hstep : modpowF (f + 1) n e m = modpowF f (n * n % m) (e / 2) m * n % m := by
          simp [modpowF, h0, h2]
        rw [hstep, hrec, hbase, hsq, Nat.mod_mul_mod, ← pow_succ]
        congr 2
        omega
      · have hstep : modpowF (f + 1) n e m = modpowF f (n * n % m) (e / 2) m := by
          simp [modpowF, h0, h2]
        rw [hstep, hrec, hbase, hsq]
        congr 2
        omega

theorem modpow_eq (n e m : Nat) : modpow n e m = n ^ e % m :=
  modpowF_eq e n e m (Nat.le_refl e)

theorem modpow_one_exp (n m : Nat) : modpow n 1 m = n % m := by
  rw [modpow_eq, pow_one]

theorem ZKP.solve_add_mod (zkp : ZKP) (k c x : Nat) (hq : 0 < zkp.q) :
    (zkp.solve k c x + c * x) % zkp.q = k % zkp.q := by
  unfold ZKP.solve
  by_cases h : c * x ≤ k
  · rw [if_pos h, modpow_one_exp, Nat.mod_add_mod, Nat.sub_add_cancel h]
  · rw [if_neg h, modpow_one_exp]
    push_neg at h
    have hr : (c * x - k) % zkp.q < zkp.q := Nat.mod_lt _ hq
    have hdm : zkp.q * ((c * x - k) / zkp.q) + (c * x - k) % zkp.q = c * x - k :=
      Nat.div_add_mod _ _
    have hms : zkp.q * ((c * x - k) / zkp.q + 1) =
        zkp.q * ((c * x - k) / zkp.q) + zkp.q := Nat.mul_succ _ _
    have key : zkp.q - (c * x - k) % zkp.q + c * x =
        k + zkp.q * ((c * x - k) / zkp.q + 1) := by omega
    rw [key, Nat.add_mul_mod_self_left]

theorem pow_mod_of_pow_order (a q p n : Nat) (h1 : a ^ q % p = 1 % p) :
    a ^ n % p = a ^ (n % q) % p := by
  by_cases hq : q = 0
  · subst hq
    rw [Nat.mod_zero]
  · conv_lhs => rw [← Nat.div_add_mod n q]
    rw [pow_add, pow_mul, Nat.mul_mod, Nat.pow_mod, h1, ← Nat.pow_mod, one_pow,
      ← Nat.mul_mod, one_mul]

theorem pow_mod_eq_one_iff {a q p : Nat} (hp : 1 < p) (hq : 0 < q)
    (hord : hasOrder a q p) (d : Nat) : a ^ d % p = 1 ↔ d % q = 0 := by
  have h1p : (1 : Nat) % p = 1 := Nat.mod_eq_of_lt hp
  have h1 : a ^ q % p = 1 % p := by rw [h1p]; exact hord.1
  constructor
  · intro h
    by_contra hne
    have hd : a ^ (d % q) % p = 1 := by
      rw [← pow_mod_of_pow_order a q p d h1]
      exact h
    exact hord.2 (d % q) (Nat.mod_lt _ hq) (Nat.pos_of_ne_zero hne) hd
  · intro h
    rw [pow_mod_of_pow_order a q p d h1, h, pow_zero, h1p]

theorem pow_mod_inj_le {a q p : Nat} (hp : 1 < p) (hq : 0 < q)
    (hord : hasOrder a q p) {i j : Nat} (hj : j < q) (hij : i ≤ j)
    (h : a ^ i % p = a ^ j % p) : i = j := by
  have h1p : (1 : Nat) % p = 1 := Nat.mod_eq_of_lt hp
  have h1 : a ^ q % p = 1 % p := by rw [h1p]; exact hord.1
  have hmul : (a ^ i * a ^ (q - i)) % p = (a ^ j * a ^ (q - i)) % p := by
    rw [Nat.mul_mod, h, ← Nat.mul_mod]
  rw [← pow_add, ← pow_add] at hmul
  have hiq : i + (q - i) = q := by omega
  have hjq : j + (q - i) = (j - i) + q := by omega
  rw [hiq, hjq] at hmul
  have hred : a ^ ((j - i) + q) % p = a ^ (j - i) % p := by
    rw [pow_mod_of_pow_order a q p _ h1, Nat.add_mod_right,
      ← pow_mod_of_pow_order a q p (j - i) h1]
  have hone : a ^ (j - i) % p = 1 := by
    rw [← hred, ← hmul, hord.1]
  have hz := (pow_mod_eq_one_iff hp hq hord (j - i)).mp hone
  have hlt : j - i < q := by omega
  have h0 : j - i = 0 := Nat.eq_zero_of_dvd_of_lt (Nat.dvd_of_mod_eq_zero hz) hlt
  omega

theorem pow_mod_pow_iff {a q p : Nat} (hp : 1 < p) (hq : 0 < q)
    (hord : hasOrder a q p) (i j : Nat) :
    a ^ i % p = a ^ j % p ↔ i % q = j % q := by
  have h1p : (1 : Nat) % p = 1 := Nat.mod_eq_of_lt hp
  have h1 : a ^ q % p = 1 % p := by rw [h1p]; exact hord.1
  constructor
  · intro h
    have h' : a ^ (i % q) % p = a ^ (j % q) % p := by
      rw [← pow_mod_of_pow_order a q p i h1, ← pow_mod_of_pow_order a q p j h1]
      exact h
    rcases Nat.le_total (i % q) (j % q) with hle | hle
    · exact pow_mod_inj_le hp hq hord (Nat.mod_lt _ hq) hle h'
    · exact (pow_mod_inj_le hp hq hord (Nat.mod_lt _ hq) hle h'.symm).symm
  · intro h
    rw [pow_mod_of_pow_order a q p i h1, pow_mod_of_pow_order a q p j h1, h]

theorem ZKP.verify_true_iff (zkp : ZKP) (r1 r2 y1 y2 c s : Nat) :
    zkp.verify r1 r2 y1 y2 c s = true ↔
      (r1 = zkp.alpha ^ s * y1 ^ c % zkp.p ∧
       r2 = zkp.beta ^ s * y2 ^ c % zkp.p) := by
  unfold ZKP.verify
  rw [modpow_one_exp, modpow_one_exp, modpow_eq, modpow_eq, modpow_eq, modpow_eq,
    ← Nat.mul_mod, ← Nat.mul_mod]
  simp [Bool.and_eq_true, beq_iff_eq]

theorem mulPowMod_eq (a p s x c : Nat) :
    a ^ s * (a ^ x % p) ^ c % p = a ^ (s + x * c) % p := by
  rw [Nat.mul_mod, ← Nat.pow_mod, ← pow_mul, ← Nat.mul_mod, ← pow_add]

/-- C1: completeness — for every parameter set `(p, q, alpha, beta)` with
`q > 0`, `p > 1` and `alpha`, `beta` of multiplicative order `q` modulo `p`,
and every secret `x`, nonce `k` and challenge `c`, the honest response
`s = solve(k, c, x)` makes `verify(α^k, β^k, α^x, β^x, c, s)` return `true`. -/
theorem ZKP.completeness (zkp : ZKP) (x k c : Nat) (hp : 1 < zkp.p)
    (hq : 0 < zkp.q) (ha : hasOrder zkp.alpha zkp.q zkp.p)
    (hb : hasOrder zkp.beta zkp.q zkp.p) :
    zkp.verify (ZKP.exponentiate zkp.alpha k zkp.p)
      (ZKP.exponentiate zkp.beta k zkp.p) (ZKP.exponentiate zkp.alpha x zkp.p)
      (ZKP.exponentiate zkp.beta x zkp.p) c (zkp.solve k c x) = true := by
  have hsolve := zkp.solve_add_mod k c x hq
  rw [ZKP.verify_true_iff]
  simp only [ZKP.exponentiate, modpow_eq]
  constructor
  · rw [mulPowMod_eq]
    exact (pow_mod_pow_iff hp hq ha k (zkp.solve k c x + x * c)).mpr
      (by rw [mul_comm x c, hsolve])
  · rw [mulPowMod_eq]
    exact (pow_mod_pow_iff hp hq hb k (zkp.solve k c x + x * c)).mpr
      (by rw [mul_comm x c, hsolve])

theorem ZKP.completeness_witness :
    (1 < (23 : Nat) ∧ 0 < (11 : Nat) ∧ hasOrder 4 11 23 ∧ hasOrder 9 11 23) ∧
    (ZKP.mk 23 11 4 9).verify (ZKP.exponentiate 4 7 23) (ZKP.exponentiate 9 7 23)
      (ZKP.exponentiate 4 6 23) (ZKP.exponentiate 9 6 23) 4
      ((ZKP.mk 23 11 4 9).solve 7 4 6) = true :=
  ⟨⟨by decide, by decide, by decide, by decide⟩,
    ZKP.completeness (ZKP.mk 23 11 4 9) 6 7 4 (by decide) (by decide)
      (by decide) (by decide)⟩

/-- C7: soundness — with `alpha`, `beta` of order `q` modulo `p`, a response
computed from a wrong secret `xf` (with `xf ≢ x (mod q)`) is rejected for
every challenge `c` outside the negligible set where `c*x ≡ c*xf (mod q)`. -/
theorem ZKP.soundness (zkp : ZKP) (x xf k c : Nat) (hp : 1 < zkp.p)
    (hq : 0 < zkp.q) (ha : hasOrder zkp.alpha zkp.q zkp.p)
    (hb : hasOrder zkp.beta zkp.q zkp.p) (hx : x % zkp.q ≠ xf % zkp.q)
    (hc : c * x % zkp.q ≠ c * xf % zkp.q) :
    zkp.verify (ZKP.exponentiate zkp.alpha k zkp.p)
      (ZKP.exponentiate zkp.beta k zkp.p) (ZKP.exponentiate zkp.alpha x zkp.p)
      (ZKP.exponentiate zkp.beta x zkp.p) c (zkp.solve k c xf) = false := by
  have hsolve := zkp.solve_add_mod k c xf hq
  rw [← Bool.not_eq_true]
  intro htrue
  rw [ZKP.verify_true_iff] at htrue
  simp only [ZKP.exponentiate, modpow_eq] at htrue
  obtain ⟨h1, _⟩ := htrue
  rw [mulPowMod_eq] at h1
  have hk := (pow_mod_pow_iff hp hq ha k (zkp.solve k c xf + x * c)).mp h1
  have hmod : (zkp.solve k c xf + c * xf) % zkp.q =
      (zkp.solve k c xf + c * x) % zkp.q := by
    rw [hsolve, hk, mul_comm x c]
  have hcc : c * xf % zkp.q = c * x % zkp.q :=
    Nat.ModEq.add_left_cancel' _ hmod
  exact hc hcc.symm

theorem ZKP.soundness_witness :
    (1 < (23 : Nat) ∧ 0 < (11 : Nat) ∧ hasOrder 4 11 23 ∧ hasOrder 9 11 23 ∧
      6 % 11 ≠ 7 % 11 ∧ 4 * 6 % 11 ≠ 4 * 7 % 11) ∧
    (ZKP.mk 23 11 4 9).verify (ZKP.exponentiate 4 7 23) (ZKP.exponentiate 9 7 23)
      (ZKP.exponentiate 4 6 23) (ZKP.exponentiate 9 6 23) 4
      ((ZKP.mk 23 11 4 9).solve 7 4 7) = false :=
  ⟨⟨by decide, by decide, by decide, by decide, by decide, by decide⟩,
    ZKP.soundness (ZKP.mk 23 11 4 9) 6 7 7 4 (by decide) (by decide)
      (by decide) (by decide) (by decide) (by decide)⟩

/-- C2 counterexample: `solve` does not always return a value in `[0, q)`.
With `q = 11`, `k = 0`, `c = 1`, `x = 11`, the subtrahend `c*x = 11` exceeds
`k` and is divisible by `q`, so `solve` returns `q - 0 = 11`, which is not the
reduced residue `0` and does not lie in `[0, 11)`. -/
theorem ZKP.solve_residue_counterexample :
    (ZKP.mk 23 11 4 9).solve 0 1 11 = 11 ∧
    ¬ (ZKP.mk 23 11 4 9).solve 0 1 11 < 11 := by
  decide

/-- C2 (amended): for non-negative `k`, `c`, `x` and `q > 0`, `solve` returns
a value congruent to `k - c*x` modulo `q`, computed by the stated branching —
`(k - c*x) mod q` when `k ≥ c*x`, else `q - ((c*x - k) mod q)` — and the
result is the reduced residue in `[0, q)` except when `k < c*x` and `q`
divides `c*x - k`, where it is `q` instead of `0`. -/
theorem ZKP.solve_branch_residue (zkp : ZKP) (k c x : Nat) (hq : 0 < zkp.q) :
    (zkp.solve k c x + c * x) % zkp.q = k % zkp.q ∧
    (c * x ≤ k → zkp.solve k c x = (k - c * x) % zkp.q) ∧
    (k < c * x → zkp.solve k c x = zkp.q - (c * x - k) % zkp.q) ∧
    (c * x ≤ k ∨ (c * x - k) % zkp.q ≠ 0 → zkp.solve k c x < zkp.q) := by
  refine ⟨zkp.solve_add_mod k c x hq, ?_, ?_, ?_⟩
  · intro h
    unfold ZKP.solve
    rw [if_pos h, modpow_one_exp]
  · intro h
    unfold ZKP.solve
    rw [if_neg (by omega), modpow_one_exp]
  · rintro (h | h)
    · unfold ZKP.solve
      rw [if_pos h, modpow_one_exp]
      exact Nat.mod_lt _ hq
    · unfold ZKP.solve
      by_cases h' : c * x ≤ k
      · rw [if_pos h', modpow_one_exp]
        exact Nat.mod_lt _ hq
      · rw [if_neg h', modpow_one_exp]
        have hr : (c * x - k) % zkp.q < zkp.q := Nat.mod_lt _ hq
        omega

theorem ZKP.solve_branch_residue_witness :
    0 < (ZKP.mk 23 11 4 9).q ∧
    (((ZKP.mk 23 11 4 9).solve 7 4 6 + 4 * 6) % 11 = 7 % 11 ∧
     (4 * 6 ≤ 7 → (ZKP.mk 23 11 4 9).solve 7 4 6 = (7 - 4 * 6) % 11) ∧
     (7 < 4 * 6 → (ZKP.mk 23 11 4 9).solve 7 4 6 = 11 - (4 * 6 - 7) % 11) ∧
     (4 * 6 ≤ 7 ∨ (4 * 6 - 7) % 11 ≠ 0 → (ZKP.mk 23 11 4 9).solve 7 4 6 < 11)) :=
  ⟨by decide, ZKP.solve_branch_residue (ZKP.mk 23 11 4 9) 7 4 6 (by decide)⟩

/-- C3: `verify` returns `true` exactly when both congruences
`r1 ≡ alpha^s * y1^c (mod p)` and `r2 ≡ beta^s * y2^c (mod p)` hold on the
stored representatives; a single failing equation makes the result `false`. -/
theorem ZKP.verify_iff_both_congruences (zkp : ZKP) (r1 r2 y1 y2 c s : Nat)
    (hp : 0 < zkp.p) :
    zkp.verify r1 r2 y1 y2 c s = true ↔
      (r1 = zkp.alpha ^ s * y1 ^ c % zkp.p ∧
       r2 = zkp.beta ^ s * y2 ^ c % zkp.p) :=
  zkp.verify_true_iff r1 r2 y1 y2 c s

theorem ZKP.verify_iff_both_congruences_witness :
    0 < (ZKP.mk 23 11 4 9).p ∧
    ((ZKP.mk 23 11 4 9).verify 8 4 2 3 4 5 = true ↔
      (8 = 4 ^ 5 * 2 ^ 4 % 23 ∧ 4 = 9 ^ 5 * 3 ^ 4 % 23)) :=
  ⟨by decide, ZKP.verify_iff_both_congruences (ZKP.mk 23 11 4 9) 8 4 2 3 4 5
    (by decide)⟩

/-- C4: the literal toy-group scenario of `test_toy_example` — with
`p = 23, q = 11, alpha = 4, beta = 9, x = 6`: `y1 = 2`, `y2 = 3`; with
`k = 7`: `r1 = 8`, `r2 = 4`; with `c = 4`: `s = solve(7,4,6) = 5` and
`verify(8,4,2,3,4,5) = true`; and the response computed from the wrong
secret `x' = 7` is rejected. -/
theorem ZKP.toy_example_scenario :
    ZKP.exponentiate 4 6 23 = 2 ∧ ZKP.exponentiate 9 6 23 = 3 ∧
    ZKP.exponentiate 4 7 23 = 8 ∧ ZKP.exponentiate 9 7 23 = 4 ∧
    (ZKP.mk 23 11 4 9).solve 7 4 6 = 5 ∧
    (ZKP.mk 23 11 4 9).verify 8 4 2 3 4 5 = true ∧
    (ZKP.mk 23 11 4 9).verify 8 4 2 3 4 ((ZKP.mk 23 11 4 9).solve 7 4 7) = false := by
  decide

/-- C5: no underflow — for every `k`, `c`, `x` and `q > 0`, `solve` runs
every partial `BigUint` operation (subtraction, which panics on underflow,
and `modpow`, which panics on a zero modulus) within its domain: the checked
evaluation succeeds and returns the value of `solve`. -/
theorem ZKP.solve_no_underflow (zkp : ZKP) (k c x : Nat) (hq : 0 < zkp.q) :
    zkp.solveChecked k c x = some (zkp.solve k c x) := by
  have hq0 : zkp.q ≠ 0 := by omega
  unfold ZKP.solveChecked ZKP.solve checkedSub checkedModpow
  by_cases h : c * x ≤ k
  · simp [h, hq0]
  · have h' : k ≤ c * x := by omega
    have hle : modpow (c * x - k) 1 zkp.q ≤ zkp.q := by
      rw [modpow_one_exp]
      exact Nat.le_of_lt (Nat.mod_lt _ hq)
    simp [h, h', hq0, hle]

theorem ZKP.solve_no_underflow_witness :
    0 < (ZKP.mk 23 11 4 9).q ∧
    (ZKP.mk 23 11 4 9).solveChecked 7 4 6 = some ((ZKP.mk 23 11 4 9).solve 7 4 6) :=
  ⟨by decide, ZKP.solve_no_underflow (ZKP.mk 23 11 4 9) 7 4 6 (by decide)⟩

/-- C6 counterexample: `exponentiate` does not return `1` for exponent `0` at
every positive modulus — with modulus `1` it returns `0`. -/
theorem ZKP.exponentiate_zero_exp_counterexample :
    ZKP.exponentiate 5 0 1 = 0 ∧ ZKP.exponentiate 5 0 1 ≠ 1 := by
  decide

/-- C6 (amended): for every base, exponent and modulus `m > 0`,
`exponentiate` returns exactly `base ^ exponent mod m` (exact
arbitrary-precision arithmetic), and returns `1` for exponent `0` whenever
`m > 1`; for `m = 1` the result is `0`. -/
theorem ZKP.exponentiate_modpow_spec (n e m : Nat) (hm : 0 < m) :
    ZKP.exponentiate n e m = n ^ e % m ∧
    (1 < m → ZKP.exponentiate n 0 m = 1) := by
  refine ⟨modpow_eq n e m, fun h1 => ?_⟩
  show modpow n 0 m = 1
  rw [modpow_eq, pow_zero, Nat.mod_eq_of_lt h1]

theorem ZKP.exponentiate_modpow_spec_witness :
    0 < 23 ∧
    (ZKP.exponentiate 4 6 23 = 4 ^ 6 % 23 ∧ (1 < 23 → ZKP.exponentiate 4 0 23 = 1)) :=
  ⟨by decide, ZKP.exponentiate_modpow_spec 4 6 23 (by decide)⟩

/-- C8: every value the bounded sampler can return for a positive bound lies
in `[0, bound)`. -/
theorem ZKP.generate_rand_below_range (entropy bound : Nat) (hb : 0 < bound) :
    ZKP.generate_rand_below entropy bound < bound :=
  Nat.mod_lt _ hb

theorem ZKP.generate_rand_below_range_witness :
    0 < 11 ∧ ZKP.generate_rand_below 123 11 < 11 :=
  ⟨by decide, ZKP.generate_rand_below_range 123 11 (by decide)⟩

/-- C9: for `q > 0` the value of `solve` lies in `[0, q]`, is congruent to
`k - c*x` modulo `q`, and equals `q` (rather than the reduced residue `0`)
exactly when `k < c*x` and `q` divides `c*x - k`. -/
theorem ZKP.solve_range_congruence (zkp : ZKP) (k c x : Nat) (hq : 0 < zkp.q) :
    zkp.solve k c x ≤ zkp.q ∧
    (zkp.solve k c x + c * x) % zkp.q = k % zkp.q ∧
    (zkp.solve k c x = zkp.q ↔ (k < c * x ∧ (c * x - k) % zkp.q = 0)) := by
  refine ⟨?_, zkp.solve_add_mod k c x hq, ?_⟩
  · unfold ZKP.solve
    by_cases h : c * x ≤ k
    · rw [if_pos h, modpow_one_exp]
      exact Nat.le_of_lt (Nat.mod_lt _ hq)
    · rw [if_neg h, modpow_one_exp]
      exact Nat.sub_le _ _
  · unfold ZKP.solve
    by_cases h : c * x ≤ k
    · rw [if_pos h, modpow_one_exp]
      have hlt : (k - c * x) % zkp.q < zkp.q := Nat.mod_lt _ hq
      constructor
      · intro habs
        omega
      · rintro ⟨hk, _⟩
        omega
    · rw [if_neg h, modpow_one_exp]
      have hr : (c * x - k) % zkp.q < zkp.q := Nat.mod_lt _ hq
      constructor
      · intro he
        exact ⟨by omega, by omega⟩
      · rintro ⟨_, hz⟩
        omega

theorem ZKP.solve_range_congruence_witness :
    0 < (ZKP.mk 23 11 4 9).q ∧
    ((ZKP.mk 23 11 4 9).solve 7 4 6 ≤ 11 ∧
     ((ZKP.mk 23 11 4 9).solve 7 4 6 + 4 * 6) % 11 = 7 % 11 ∧
     ((ZKP.mk 23 11 4 9).solve 7 4 6 = 11 ↔ (7 < 4 * 6 ∧ (4 * 6 - 7) % 11 = 0))) :=
  ⟨by decide, ZKP.solve_range_congruence (ZKP.mk 23 11 4 9) 7 4 6 (by decide)⟩

/-- C10: with modulus `1` the result of `exponentiate` is always `0`, also
for exponent `0`; and for every positive modulus `m` the result is strictly
below `m`. -/
theorem ZKP.exponentiate_lt_modulus (n e m : Nat) (hm : 0 < m) :
    ZKP.exponentiate n e 1 = 0 ∧ ZKP.exponentiate n e m < m := by
  constructor
  · show modpow n e 1 = 0
    rw [modpow_eq, Nat.mod_one]
  · show modpow n e m < m
    rw [modpow_eq]
    exact Nat.mod_lt _ hm

theorem ZKP.exponentiate_lt_modulus_witness :
    0 < 23 ∧ (ZKP.exponentiate 9 0 1 = 0 ∧ ZKP.exponentiate 9 0 23 < 23) :=
  ⟨by decide, ZKP.exponentiate_lt_modulus 9 0 23 (by decide)⟩
